import Mathlib

/-!
Verification of the rust-energy-meter core: the date-list and counter-list
command-line parsers (src/cli.rs, src/utils.rs) and the tariff registry with
its hour-to-period table (src/cmd.rs).

Rust strings are modelled as `List Char`; byte-oriented operations
(`str::len`, `str::get` on byte ranges) are modelled through explicit UTF-8
byte sizes.  Fallible operations return `Except`/`Option`; a Rust panic
(`unwrap` on `None`) is modelled as the `none` case of an outer `Option`.
`chrono::NaiveDate::parse_from_str` with format "%Y-%m-%d" is modelled after
chrono's scanner: a numeric field parses between 1 and `width` digits (width
4 for the year, 2 for month and day; a leading sign on the year lifts the
width), literal hyphens must match exactly, trailing input is rejected, and
the resulting (year, month, day) must be a real proleptic-Gregorian date.
-/

/-- Splitting a character list on a separator, matching Rust str::split:
the empty string yields one empty field, and every separator occurrence
starts a new field. -/
def splitSep (sep : Char) : List Char → List (List Char)
  | [] => [[]]
  | c :: rest =>
    let r := splitSep sep rest
    if c = sep then [] :: r
    else (c :: r.headD []) :: r.tail

/-- Joining fields with a separator, the inverse of splitSep. -/
def joinSep (sep : Char) : List (List Char) → List Char
  | [] => []
  | [x] => x
  | x :: y :: ys => x ++ sep :: joinSep sep (y :: ys)

/-- Splitting at the first separator occurrence, matching Rust
str::split_once. -/
def splitOnce (sep : Char) : List Char → Option (List Char × List Char)
  | [] => none
  | c :: rest =>
    if c = sep then some ([], rest)
    else (splitOnce sep rest).map (fun pr => (c :: pr.1, pr.2))

/-- UTF-8 byte size of one character. -/
def charUtf8Size (c : Char) : Nat :=
  if c.val < 128 then 1
  else if c.val < 2048 then 2
  else if c.val < 65536 then 3
  else 4

/-- UTF-8 byte length of a character list, matching Rust str::len. -/
def utf8Len (l : List Char) : Nat := (l.map charUtf8Size).sum

/-- Take at most n leading ASCII digits, returning them and the rest,
matching the digit-consuming loop of chrono scan::number. -/
def takeDigits : Nat → List Char → List Char × List Char
  | 0, l => ([], l)
  | _ + 1, [] => ([], [])
  | n + 1, c :: rest =>
    if c.isDigit then
      let pr := takeDigits n rest
      (c :: pr.1, pr.2)
    else ([], c :: rest)

/-- Numeric value of a digit list, most significant first. -/
def digitsVal (l : List Char) : Nat :=
  l.foldl (fun n c => n * 10 + (c.toNat - 48)) 0

/-- Rust unsigned-integer FromStr: an optional leading plus sign, then one
or more ASCII digits, value within the bound of the integer type. -/
def parseUIntBounded (bound : Nat) (s : List Char) : Option Nat :=
  let digits := match s with
    | '+' :: rest => rest
    | _ => s
  if digits = [] then none
  else if digits.all Char.isDigit then
    if digitsVal digits ≤ bound then some (digitsVal digits) else none
  else none

/-- Proleptic-Gregorian leap-year rule used by chrono. -/
def isLeapYear (y : Int) : Bool :=
  y % 4 = 0 && (y % 100 ≠ 0 || y % 400 = 0)

/-- Number of days of a month (0 outside 1..12). -/
def daysInMonth (y : Int) (m : Nat) : Nat :=
  if m = 1 then 31 else if m = 2 then (if isLeapYear y then 29 else 28)
  else if m = 3 then 31 else if m = 4 then 30 else if m = 5 then 31
  else if m = 6 then 30 else if m = 7 then 31 else if m = 8 then 31
  else if m = 9 then 30 else if m = 10 then 31 else if m = 11 then 30
  else if m = 12 then 31 else 0

/-- Calendar validity as checked by chrono when assembling a NaiveDate:
the year within NaiveDate range, a real month and a real day of that
month. -/
def validYmd (y : Int) (m d : Nat) : Prop :=
  -262144 ≤ y ∧ y ≤ 262143 ∧ 1 ≤ m ∧ m ≤ 12 ∧ 1 ≤ d ∧ d ≤ daysInMonth y m

instance (y : Int) (m d : Nat) : Decidable (validYmd y m d) := by
  unfold validYmd; infer_instance

/-- Final assembly step of chrono parsing: keep the components only when
they form a real date. -/
def mkYmd (y : Int) (m d : Nat) : Option (Int × Nat × Nat) :=
  if validYmd y m d then some (y, m, d) else none

/-- Continuation of chrono "%Y-%m-%d" parsing after the year: a literal
hyphen, 1-2 month digits, a literal hyphen, 1-2 day digits, end of input. -/
def afterYear (y : Int) (r : List Char) : Option (Int × Nat × Nat) :=
  match r with
  | [] => none
  | c :: r1 =>
    if c = '-' then
      let pm := takeDigits 2 r1
      if pm.1 = [] then none
      else
        match pm.2 with
        | [] => none
        | c2 :: r3 =>
          if c2 = '-' then
            let pd := takeDigits 2 r3
            if pd.1 = [] then none
            else if pd.2 = [] then mkYmd y (digitsVal pm.1) (digitsVal pd.1)
            else none
          else none
    else none

/-- Model of chrono NaiveDate parse_from_str with format "%Y-%m-%d".
Without a sign the year takes 1-4 digits; a leading sign lifts the digit
bound (an i64 overflow while scanning is an error). -/
def parseYmd (l : List Char) : Option (Int × Nat × Nat) :=
  match l with
  | [] => none
  | c :: rest =>
    if c = '-' then
      let pr := takeDigits rest.length rest
      if pr.1 = [] then none
      else if digitsVal pr.1 ≤ 9223372036854775807 then
        afterYear (-(digitsVal pr.1 : Int)) pr.2
      else none
    else if c = '+' then
      let pr := takeDigits rest.length rest
      if pr.1 = [] then none
      else if digitsVal pr.1 ≤ 9223372036854775807 then
        afterYear ((digitsVal pr.1 : Int)) pr.2
      else none
    else
      let pr := takeDigits 4 (c :: rest)
      if pr.1 = [] then none else afterYear ((digitsVal pr.1 : Int)) pr.2

/-- Error text for a first field with the wrong number of hyphens
(src/utils.rs line 28, src/cli.rs line 89). -/
def errParts (s d : List Char) : List Char :=
  ("invalid date ").data ++ s ++ (", part ").data ++ d ++
    (" contains an invalid number of hyphen characters").data

/-- Error text for an invalid first date of a unit (src/utils.rs line 38,
src/cli.rs line 99). -/
def errDate1 (date : List Char) : List Char :=
  ("invalid date ").data ++ date ++
    (". It is not of the format yyyy-mm-dd or it is not a valid date").data

/-- Error text for an invalid subsequent day of a unit (src/utils.rs
line 48, src/cli.rs line 109). -/
def errDate2 (date : List Char) : List Char :=
  ("invalid date ").data ++ date ++
    (". It is not of the format yyyy-mm-dd").data

/-- The inner day loop of the date parsers: each remaining comma field is
a bare day combined with the shared year-month, validated through chrono
(src/utils.rs lines 45-55, src/cli.rs lines 106-115). -/
def parseRestDays (ym : List Char) : List (List Char) → Except (List Char) (List (List Char))
  | [] => .ok []
  | day :: rest =>
    let date := ym ++ '-' :: day
    if (parseYmd date).isSome then
      match parseRestDays ym rest with
      | .error e => .error e
      | .ok ds => .ok (date :: ds)
    else .error (errDate2 date)

/-- Parsing of one date unit: split on commas, the first field must split
on hyphens into exactly three parts, the composed date and every further
day must pass chrono validation (body shared by src/utils.rs
parse_date_multiple_days and the per-unit loop of src/cli.rs
dates_list_check). -/
def parseDateUnit (u : List Char) : Except (List Char) (List (List Char)) :=
  match splitSep ',' u with
  | [] => .ok []
  | d :: days =>
    match splitSep '-' d with
    | [a, b, c] =>
      let ym := a ++ '-' :: b
      let date := ym ++ '-' :: c
      if (parseYmd date).isSome then
        match parseRestDays ym days with
        | .error e => .error e
        | .ok ds => .ok (date :: ds)
      else .error (errDate1 date)
    | _ => .error (errParts u d)

/-- Model of src/utils.rs parse_date_multiple_days. -/
def parse_date_multiple_days (s : List Char) : Except (List Char) (List (List Char)) :=
  parseDateUnit s

/-- The unit loop of src/cli.rs dates_list_check over the
semicolon-separated units, concatenating the parsed dates and stopping at
the first failing unit. -/
def datesUnitsCheck : List (List Char) → Except (List Char) (List (List Char))
  | [] => .ok []
  | u :: us =>
    match parseDateUnit u with
    | .error e => .error e
    | .ok ds =>
      match datesUnitsCheck us with
      | .error e => .error e
      | .ok rest => .ok (ds ++ rest)

/-- Model of src/cli.rs dates_list_check. -/
def dates_list_check (s : List Char) : Except (List Char) (List (List Char)) :=
  datesUnitsCheck (splitSep ';' s)

/-- Error text for a counter pair without an equals sign
(src/cli.rs line 142). -/
def errNoEq (p : List Char) : List Char :=
  ("invalid period ").data ++ p ++ (", it does not have an equals sign").data

/-- Error text for an invalid period name (src/cli.rs line 148). -/
def errName (p name : List Char) : List Char :=
  ("invalid period ").data ++ p ++ (", invalid period name ").data ++ name

/-- Error text for a period name without a digit (src/cli.rs line 154). -/
def errDigit (p name : List Char) : List Char :=
  ("invalid period ").data ++ p ++ (", no single digit number after p in ").data ++ name

/-- Error text for an invalid counter value (src/cli.rs line 159). -/
def errValue (p value : List Char) : List Char :=
  ("invalid period ").data ++ p ++ (", invalid value ").data ++ value

/-- One iteration of the pair loop of src/cli.rs meter_counters_check.
The outer Option models a panic: str::get(0..1).unwrap() panics when the
name is two bytes long but its first character occupies both bytes, since
byte index 1 is then not a character boundary and get returns None. -/
def meterPairCheck (p : List Char) : Option (Except (List Char) (Nat × Nat)) :=
  match splitOnce '=' p with
  | none => some (.error (errNoEq p))
  | some (name, value) =>
    if utf8Len name ≠ 2 then some (.error (errName p name))
    else
      match name with
      | [] => none
      | c1 :: nrest =>
        if charUtf8Size c1 ≠ 1 then none
        else if c1 ≠ 'p' then some (.error (errName p name))
        else
          match nrest with
          | [] => none
          | c2 :: _ =>
            match parseUIntBounded 255 [c2] with
            | none => some (.error (errDigit p name))
            | some pi =>
              match parseUIntBounded 18446744073709551615 value with
              | none => some (.error (errValue p value))
              | some pv => some (.ok (pi, pv))

/-- The pair loop of src/cli.rs meter_counters_check over the
comma-separated pairs, stopping at the first failing pair; a panic in any
processed pair aborts the whole run. -/
def meterPairsCheck : List (List Char) → Option (Except (List Char) (List (Nat × Nat)))
  | [] => some (.ok [])
  | p :: ps =>
    match meterPairCheck p with
    | none => none
    | some (.error e) => some (.error e)
    | some (.ok pr) =>
      match meterPairsCheck ps with
      | none => none
      | some (.error e) => some (.error e)
      | some (.ok rest) => some (.ok (pr :: rest))

/-- Model of src/cli.rs meter_counters_check; the outer Option models a
panic. -/
def meter_counters_check (s : List Char) : Option (Except (List Char) (List (Nat × Nat))) :=
  meterPairsCheck (splitSep ',' s)

/-- A result is an error (as opposed to a success). -/
def exceptIsError : Except (List Char) (List (List Char)) → Bool
  | .error _ => true
  | .ok _ => false

/-- A counter-parser run ends in a returned error (neither success nor
panic). -/
def isSomeError : Option (Except (List Char) (List (Nat × Nat))) → Bool
  | some (.error _) => true
  | _ => false

/-- Insertion into the bank-holiday set, modelling HashSet insert of
src/cmd.rs: membership only, duplicates absorbed. -/
def insertSet (l : List (List Char)) (d : List Char) : List (List Char) :=
  if d ∈ l then l else l ++ [d]

/-- Model of src/cmd.rs Cmd::with_bank_holidays.  The state is threaded
explicitly: the returned set reflects the in-place mutation performed up
to the point of a parse failure, and the Option carries the error of the
first raw string that fails to parse. -/
def with_bank_holidays (bh : List (List Char)) :
    List (List Char) → List (List Char) × Option (List Char)
  | [] => (bh, none)
  | mdate :: rest =>
    match parse_date_multiple_days mdate with
    | .error e => (bh, some e)
    | .ok days => with_bank_holidays (days.foldl insertSet bh) rest

/-- Insertion into the counter map, modelling HashMap insert of
src/cmd.rs: at most one entry per period, re-insertion overwrites. -/
def counterInsert : List (Nat × Nat) → Nat → Nat → List (Nat × Nat)
  | [], p, c => [(p, c)]
  | (q, v) :: rest, p, c =>
    if q = p then counterInsert rest p c else (q, v) :: counterInsert rest p c

/-- Lookup in the counter map (first matching entry). -/
def counterGet : List (Nat × Nat) → Nat → Option Nat
  | [], _ => none
  | (q, v) :: rest, p => if q = p then some v else counterGet rest p

/-- Model of src/cmd.rs Cmd::with_counters: insert every pair in order,
overwriting existing periods. -/
def with_counters (m : List (Nat × Nat)) (periods : List (Nat × Nat)) : List (Nat × Nat) :=
  periods.foldl (fun acc pc => counterInsert acc pc.1 pc.2) m

/-- The inner write loop `for t in start..current_end` of src/cmd.rs
Cmd::index_period_times, writing `n` slots from `s` upward.  The table is
a function from hour to period; a write at an index outside the 24-slot
array is the out-of-bounds panic, modelled as none. -/
def writeHours (p : Nat) : (Nat → Nat) → Nat → Nat → Option (Nat → Nat)
  | f, _, 0 => some f
  | f, s, n + 1 =>
    if s < 24 then writeHours p (fun i => if i = s then p else f i) (s + 1) n
    else none

/-- One window of src/cmd.rs Cmd::index_period_times: current_end is 24
when the window wraps, the first pass writes [start, current_end), and
when current_end differs from end a second pass writes [0, end). -/
def applyWindowChecked (f : Nat → Nat) (w : Nat × Nat × Nat) : Option (Nat → Nat) :=
  match writeHours w.1 f w.2.1 ((if w.2.2 < w.2.1 then 24 else w.2.2) - w.2.1) with
  | none => none
  | some f1 =>
    if (if w.2.2 < w.2.1 then 24 else w.2.2) = w.2.2 then some f1
    else writeHours w.1 f1 0 w.2.2

/-- The window loop of src/cmd.rs Cmd::index_period_times. -/
def index_go : List (Nat × Nat × Nat) → (Nat → Nat) → Option (Nat → Nat)
  | [], f => some f
  | w :: ws, f =>
    match applyWindowChecked f w with
    | none => none
    | some f1 => index_go ws f1

/-- Model of src/cmd.rs Cmd::index_period_times, starting from the table
of all zeros. -/
def index_period_times (ws : List (Nat × Nat × Nat)) : Option (Nat → Nat) :=
  index_go ws (fun _ => 0)

/-- The 24 slots of the built table as a list, for concrete evaluation. -/
def tableOf (ws : List (Nat × Nat × Nat)) : Option (List Nat) :=
  (index_period_times ws).map (fun g => (List.range 24).map g)

/-- Modelled from the spec: a window (period, start, end) covers hour h
when start ≤ h < end, or, for a wrap-around window with end < start, when
start ≤ h < 24 or h < end. -/
def windowCovers (w : Nat × Nat × Nat) (h : Nat) : Prop :=
  if w.2.2 < w.2.1 then (w.2.1 ≤ h ∧ h < 24) ∨ h < w.2.2
  else w.2.1 ≤ h ∧ h < w.2.2

instance (w : Nat × Nat × Nat) (h : Nat) : Decidable (windowCovers w h) := by
  unfold windowCovers; infer_instance

/-- Modelled from the spec: the period of hour h is that of the last
window covering h, and 0 when no window covers it. -/
def lookupPeriod (ws : List (Nat × Nat × Nat)) (h : Nat) : Nat :=
  ws.foldl (fun acc w => if windowCovers w h then w.1 else acc) 0

/-- Trip count of the inner loop of src/cmd.rs Cmd::index_period_times
for one window: the loop body runs once, breaks when current_end already
equals end, and otherwise runs exactly once more (the second pass always
breaks). -/
def windowIterations (w : Nat × Nat × Nat) : Nat :=
  if (if w.2.2 < w.2.1 then 24 else w.2.2) = w.2.2 then 1 else 2


/-- The write loop succeeds when all written slots are below 24, and the
resulting table holds the period on the written range and is unchanged
elsewhere. -/
theorem writeHours_ok (p : Nat) : ∀ (n s : Nat) (f : Nat → Nat), s + n ≤ 24 →
    ∃ g, writeHours p f s n = some g ∧
      ∀ i, g i = if s ≤ i ∧ i < s + n then p else f i := by
  intro n
  induction n with
  | zero =>
    intro s f _
    refine ⟨f, rfl, ?_⟩
    intro i
    rw [if_neg (by omega)]
  | succ n ih =>
    intro s f h
    obtain ⟨g, hg, hgi⟩ := ih (s + 1) (fun i => if i = s then p else f i) (by omega)
    refine ⟨g, ?_, ?_⟩
    · simp only [writeHours]
      rw [if_pos (by omega)]
      exact hg
    · intro i
      rw [hgi i]
      by_cases h1 : s + 1 ≤ i ∧ i < s + 1 + n
      · rw [if_pos h1, if_pos (by omega)]
      · rw [if_neg h1]
        by_cases h2 : i = s
        · rw [if_pos h2, if_pos (by omega)]
        · rw [if_neg h2, if_neg (by omega)]

/-- One window with both hours at most 24 never reaches the out-of-bounds
branch, and updates exactly the hours the window covers. -/
theorem applyWindow_ok (f : Nat → Nat) (w : Nat × Nat × Nat)
    (h1 : w.2.1 ≤ 24) (h2 : w.2.2 ≤ 24) :
    ∃ g, applyWindowChecked f w = some g ∧
      ∀ i, i < 24 → g i = if windowCovers w i then w.1 else f i := by
  by_cases hw : w.2.2 < w.2.1
  · obtain ⟨f1, hf1, hf1i⟩ := writeHours_ok w.1 ((if w.2.2 < w.2.1 then 24 else w.2.2) - w.2.1)
      w.2.1 f (by rw [if_pos hw]; omega)
    obtain ⟨g, hg, hgi⟩ := writeHours_ok w.1 w.2.2 0 f1 (by omega)
    refine ⟨g, ?_, ?_⟩
    · simp only [applyWindowChecked, hf1]
      rw [if_neg (by rw [if_pos hw]; omega)]
      exact hg
    · intro i hi
      rw [hgi i, hf1i i]
      simp only [windowCovers, if_pos hw]
      split_ifs <;> omega
  · obtain ⟨f1, hf1, hf1i⟩ := writeHours_ok w.1 ((if w.2.2 < w.2.1 then 24 else w.2.2) - w.2.1)
      w.2.1 f (by rw [if_neg hw]; omega)
    refine ⟨f1, ?_, ?_⟩
    · simp only [applyWindowChecked, hf1]
      rw [if_pos (by rw [if_neg hw])]
    · intro i hi
      rw [hf1i i]
      simp only [windowCovers, if_neg hw]
      split_ifs <;> omega

/-- The window loop succeeds on well-formed windows and realises the
last-write-wins fold over the window list, starting from any table. -/
theorem index_go_ok : ∀ (ws : List (Nat × Nat × Nat)) (f : Nat → Nat),
    (∀ w ∈ ws, w.2.1 ≤ 24 ∧ w.2.2 ≤ 24) →
    ∃ g, index_go ws f = some g ∧
      ∀ i, i < 24 →
        g i = ws.foldl (fun acc w => if windowCovers w i then w.1 else acc) (f i) := by
  intro ws
  induction ws with
  | nil =>
    intro f _
    exact ⟨f, rfl, fun i _ => rfl⟩
  | cons w ws ih =>
    intro f hws
    obtain ⟨f1, hf1, hf1i⟩ := applyWindow_ok f w (hws w (by simp)).1 (hws w (by simp)).2
    obtain ⟨g, hg, hgi⟩ := ih f1 (fun v hv => hws v (by simp [hv]))
    refine ⟨g, ?_, ?_⟩
    · simp only [index_go, hf1]
      exact hg
    · intro i hi
      rw [hgi i hi, List.foldl_cons]
      rw [show (if windowCovers w i then w.1 else f i) = f1 i from (hf1i i hi).symm]

/-- C1: building the period table processes the windows in input order
over a table initialised to period 0: a window (period, start, end) with
end at least start covers the hours in [start, end), a wrap-around window
with end below start covers [start, 24) and [0, end), later windows
overwrite earlier ones on overlapping hours, and uncovered hours keep
period 0.  Stated for well-formed time windows, whose hours are at most
24. -/
theorem c1_period_table (ws : List (Nat × Nat × Nat))
    (hws : ∀ w ∈ ws, w.2.1 ≤ 24 ∧ w.2.2 ≤ 24) :
    ∃ g, index_period_times ws = some g ∧ ∀ h, h < 24 → g h = lookupPeriod ws h := by
  obtain ⟨g, hg, hgi⟩ := index_go_ok ws (fun _ => 0) hws
  exact ⟨g, hg, fun h hh => hgi h hh⟩

/-- Witness for C1 at the time windows of the specification example,
together with the concrete 24-slot table it yields: hours 0-7 map to
period 3, 8-9 to 2, 10-13 to 1, 14-17 to 2, 18-21 to 1, and 22-23 to
2. -/
theorem c1_period_table_witness :
    (∃ g, index_period_times
        [(1, 10, 14), (1, 18, 22), (2, 8, 10), (2, 14, 18), (2, 22, 0), (3, 0, 8)] = some g ∧
      ∀ h, h < 24 →
        g h = lookupPeriod
          [(1, 10, 14), (1, 18, 22), (2, 8, 10), (2, 14, 18), (2, 22, 0), (3, 0, 8)] h)
  ∧ tableOf [(1, 10, 14), (1, 18, 22), (2, 8, 10), (2, 14, 18), (2, 22, 0), (3, 0, 8)] =
      some [3, 3, 3, 3, 3, 3, 3, 3, 2, 2, 1, 1, 1, 1, 2, 2, 2, 2, 1, 1, 1, 1, 2, 2] :=
  ⟨c1_period_table
      [(1, 10, 14), (1, 18, 22), (2, 8, 10), (2, 14, 18), (2, 22, 0), (3, 0, 8)]
      (by decide), rfl⟩

/-- C9: when every start-hour and end-hour is at most 24, every table
write stays inside [0, 24) and the out-of-bounds branch is unreachable,
so building the table returns a value; without the precondition a window
with end-hour above 24 and end at least start reaches an out-of-bounds
index, modelled as none. -/
theorem c9_write_bounds :
    (∀ ws : List (Nat × Nat × Nat),
      (∀ w ∈ ws, w.2.1 ≤ 24 ∧ w.2.2 ≤ 24) → (index_period_times ws).isSome = true)
  ∧ index_period_times [(1, 0, 25)] = none := by
  constructor
  · intro ws hws
    obtain ⟨g, hg, -⟩ := index_go_ok ws (fun _ => 0) hws
    rw [index_period_times, hg]
    rfl
  · rfl

/-- Witness for C9 at a wrap-around window list with hours at most 24. -/
theorem c9_write_bounds_witness :
    (index_period_times [(2, 22, 0)]).isSome = true :=
  c9_write_bounds.1 [(2, 22, 0)] (by decide)

/-- Counterexample to C10 as stated: the window (1, 25, 24) has end-hour
24 below its start-hour 25, yet the inner loop body runs only once, not
twice, because the initial current_end of 24 already equals end. -/
theorem c10_counterexample :
    (24 : Nat) < 25 ∧ windowIterations (1, 25, 24) = 1 := by decide

/-- C10 amended: for every window the inner loop body runs at most twice;
it runs once whenever end is at least start, and it runs exactly twice
precisely when end is below start and end differs from 24 (for end = 24
with start above 24, the first pass already has current_end equal to end
and the loop stops after one run). -/
theorem c10_loop_runs (w : Nat × Nat × Nat) :
    windowIterations w ≤ 2
  ∧ (w.2.1 ≤ w.2.2 → windowIterations w = 1)
  ∧ (windowIterations w = 2 ↔ w.2.2 < w.2.1 ∧ w.2.2 ≠ 24) := by
  simp only [windowIterations]
  by_cases hw : w.2.2 < w.2.1
  · rw [if_pos hw]
    by_cases h24 : (24 : Nat) = w.2.2
    · rw [if_pos h24]
      omega
    · rw [if_neg h24]
      omega
  · rw [if_neg hw, if_pos rfl]
    omega

/-- Witness for C10 amended at the windows (1, 10, 14) and (2, 22, 0). -/
theorem c10_loop_runs_witness :
    windowIterations (1, 10, 14) = 1 ∧ windowIterations (2, 22, 0) = 2 :=
  ⟨(c10_loop_runs (1, 10, 14)).2.1 (by decide),
   ((c10_loop_runs (2, 22, 0)).2.2).mpr (by decide)⟩

/-- Inserting a period overwrites its previous value and leaves every
other period untouched, the HashMap insert contract. -/
theorem counterGet_insert (q c p : Nat) :
    ∀ m : List (Nat × Nat),
      counterGet (counterInsert m q c) p = if q = p then some c else counterGet m p := by
  intro m
  induction m with
  | nil =>
    simp only [counterInsert, counterGet]
  | cons pc rest ih =>
    obtain ⟨q1, v1⟩ := pc
    simp only [counterInsert]
    by_cases h : q1 = q
    · rw [if_pos h, ih]
      by_cases h2 : q = p
      · rw [if_pos h2, if_pos h2]
      · rw [if_neg h2, if_neg h2]
        simp only [counterGet]
        rw [if_neg (by omega)]
    · rw [if_neg h]
      simp only [counterGet]
      rw [ih]
      split_ifs <;> first | rfl | omega

/-- Lookup distributes over append, first match first. -/
theorem counterGet_append (p : Nat) : ∀ l1 l2 : List (Nat × Nat),
    counterGet (l1 ++ l2) p =
      match counterGet l1 p with
      | some v => some v
      | none => counterGet l2 p := by
  intro l1
  induction l1 with
  | nil => intro l2; rfl
  | cons pc rest ih =>
    intro l2
    obtain ⟨q, c⟩ := pc
    simp only [List.cons_append, counterGet, List.append_eq]
    by_cases h : q = p
    · rw [if_pos h, if_pos h]
    · rw [if_neg h, if_neg h, ih]

/-- Applying a pair list to the counter map realises last-occurrence-wins:
the result of a lookup is the value of the last pair for that period, and
the previous map value when the list never mentions the period. -/
theorem counterGet_with_counters (p : Nat) :
    ∀ (ps : List (Nat × Nat)) (m : List (Nat × Nat)),
      counterGet (with_counters m ps) p =
        match counterGet ps.reverse p with
        | some v => some v
        | none => counterGet m p := by
  intro ps
  induction ps with
  | nil => intro m; rfl
  | cons pc rest ih =>
    intro m
    obtain ⟨q, c⟩ := pc
    have hstep : with_counters m ((q, c) :: rest) = with_counters (counterInsert m q c) rest := rfl
    rw [hstep, ih]
    have hrev : ((q, c) :: rest).reverse = rest.reverse ++ [(q, c)] := by simp
    rw [hrev, counterGet_append]
    cases hr : counterGet rest.reverse p with
    | some v => rfl
    | none =>
      rw [counterGet_insert]
      simp only [counterGet]
      by_cases h : q = p
      · rw [if_pos h, if_pos h]
      · rw [if_neg h, if_neg h]

/-- C5: parseCounterList on "p3=10,p1=9" returns exactly the ordered pairs
(3,10) and (1,9); applying addCounters to (1,60),(2,3876),(1,89) maps
period 1 to 89 and period 2 to 3876; in general a lookup after
with_counters returns the value of the last occurrence of the period, and
applying two pair lists in sequence equals applying their concatenation,
so the last occurrence also wins across calls. -/
theorem c5_counter_pairs :
    meter_counters_check (("p3=10,p1=9").data) = some (.ok [(3, 10), (1, 9)])
  ∧ counterGet (with_counters [] [(1, 60), (2, 3876), (1, 89)]) 1 = some 89
  ∧ counterGet (with_counters [] [(1, 60), (2, 3876), (1, 89)]) 2 = some 3876
  ∧ (∀ (m ps : List (Nat × Nat)) (p : Nat),
      counterGet (with_counters m ps) p =
        match counterGet ps.reverse p with
        | some v => some v
        | none => counterGet m p)
  ∧ (∀ m l1 l2 : List (Nat × Nat),
      with_counters (with_counters m l1) l2 = with_counters m (l1 ++ l2)) := by
  refine ⟨rfl, rfl, rfl, ?_, ?_⟩
  · intro m ps p
    exact counterGet_with_counters p ps m
  · intro m l1 l2
    simp [with_counters, List.foldl_append]

/-- The registry returns no error when every raw date string parses. -/
theorem with_bank_holidays_no_error :
    ∀ (dates : List (List Char)) (bh : List (List Char)),
      (∀ md ∈ dates, ∃ ds, parse_date_multiple_days md = .ok ds) →
      (with_bank_holidays bh dates).2 = none := by
  intro dates
  induction dates with
  | nil => intro bh _; rfl
  | cons md rest ih =>
    intro bh h
    obtain ⟨ds, hds⟩ := h md (by simp)
    simp only [with_bank_holidays, hds]
    exact ih _ (fun v hv => h v (by simp [hv]))

/-- C8: repeated identical dates never make addBankHolidays fail (any
list of raw strings that all parse yields no error, whatever duplicates
they contain and whatever the current set holds), the concrete sequence
"2022-12-25,26" then "2022-12-25" leaves exactly 2 stored holidays, and
inserting an already-present date leaves the set unchanged. -/
theorem c8_set_dedup :
    (∀ (bh : List (List Char)) (dates : List (List Char)),
      (∀ md ∈ dates, ∃ ds, parse_date_multiple_days md = .ok ds) →
      (with_bank_holidays bh dates).2 = none)
  ∧ (with_bank_holidays (with_bank_holidays [] [("2022-12-25,26").data]).1
      [("2022-12-25").data]).1.length = 2
  ∧ (∀ (l : List (List Char)) (d : List Char), d ∈ l → insertSet l d = l) := by
  refine ⟨?_, rfl, ?_⟩
  · intro bh dates h
    exact with_bank_holidays_no_error dates bh h
  · intro l d h
    simp [insertSet, h]

/-- Witness for C8: a call containing a duplicated date returns no error,
and re-inserting a present date is the identity. -/
theorem c8_set_dedup_witness :
    (with_bank_holidays [] [("2022-12-26").data, ("2022-12-25,26").data]).2 = none
  ∧ insertSet [("2022-12-25").data] (("2022-12-25").data) = [("2022-12-25").data] := by
  constructor
  · refine c8_set_dedup.1 [] [("2022-12-26").data, ("2022-12-25,26").data] ?_
    intro md hmd
    simp only [List.mem_cons, List.not_mem_nil, or_false] at hmd
    rcases hmd with h | h <;> subst h <;> exact ⟨_, rfl⟩
  · exact c8_set_dedup.2.2 [("2022-12-25").data] (("2022-12-25").data) (by simp)

/-- The unit loop of dates_list_check stops at the first failing unit and
returns its error unchanged. -/
theorem datesUnitsCheck_fail_fast :
    ∀ (us1 : List (List Char)) (u : List Char) (us2 : List (List Char)) (e : List Char),
      (∀ v ∈ us1, ∃ ds, parseDateUnit v = .ok ds) →
      parseDateUnit u = .error e →
      datesUnitsCheck (us1 ++ u :: us2) = .error e := by
  intro us1
  induction us1 with
  | nil =>
    intro u us2 e _ hu
    simp only [List.nil_append, datesUnitsCheck, hu]
  | cons v us1 ih =>
    intro u us2 e h hu
    obtain ⟨ds, hds⟩ := h v (by simp)
    simp only [List.cons_append, datesUnitsCheck, List.append_eq, hds]
    rw [ih u us2 e (fun x hx => h x (by simp [hx])) hu]

/-- The pair loop of meter_counters_check stops at the first failing pair
and returns its error unchanged. -/
theorem meterPairsCheck_fail_fast :
    ∀ (ps1 : List (List Char)) (q : List Char) (ps2 : List (List Char)) (e : List Char),
      (∀ v ∈ ps1, ∃ pr, meterPairCheck v = some (.ok pr)) →
      meterPairCheck q = some (.error e) →
      meterPairsCheck (ps1 ++ q :: ps2) = some (.error e) := by
  intro ps1
  induction ps1 with
  | nil =>
    intro q ps2 e _ hq
    simp only [List.nil_append, meterPairsCheck, hq]
  | cons v ps1 ih =>
    intro q ps2 e h hq
    obtain ⟨pr, hpr⟩ := h v (by simp)
    simp only [List.cons_append, meterPairsCheck, List.append_eq, hpr]
    rw [ih q ps2 e (fun x hx => h x (by simp [hx])) hq]

/-- The registry aborts at the first raw string that fails to parse,
keeping the dates of the earlier successfully parsed strings and
inserting nothing from the failing string onward. -/
theorem with_bank_holidays_fail_fast :
    ∀ (good : List (List Char)) (bh : List (List Char)) (bad : List Char)
      (rest : List (List Char)) (e : List Char),
      (∀ g ∈ good, ∃ ds, parse_date_multiple_days g = .ok ds) →
      parse_date_multiple_days bad = .error e →
      with_bank_holidays bh (good ++ bad :: rest) =
        ((with_bank_holidays bh good).1, some e) := by
  intro good
  induction good with
  | nil =>
    intro bh bad rest e _ hbad
    simp only [List.nil_append, with_bank_holidays, hbad]
  | cons g good ih =>
    intro bh bad rest e h hbad
    obtain ⟨ds, hds⟩ := h g (by simp)
    simp only [List.cons_append, with_bank_holidays, List.append_eq, hds]
    exact ih _ bad rest e (fun x hx => h x (by simp [hx])) hbad

/-- C3: both parsers fail on the first invalid unit or pair without
recovery, the registry returns the parser error unchanged, and when a raw
string fails no date from it or any later string is inserted while the
sets built from the earlier successfully parsed strings remain. -/
theorem c3_fail_fast :
    (∀ (us1 : List (List Char)) (u : List Char) (us2 : List (List Char)) (e : List Char),
      (∀ v ∈ us1, ∃ ds, parseDateUnit v = .ok ds) →
      parseDateUnit u = .error e →
      datesUnitsCheck (us1 ++ u :: us2) = .error e)
  ∧ (∀ (ps1 : List (List Char)) (q : List Char) (ps2 : List (List Char)) (e : List Char),
      (∀ v ∈ ps1, ∃ pr, meterPairCheck v = some (.ok pr)) →
      meterPairCheck q = some (.error e) →
      meterPairsCheck (ps1 ++ q :: ps2) = some (.error e))
  ∧ (∀ (bh : List (List Char)) (good : List (List Char)) (bad : List Char)
      (rest : List (List Char)) (e : List Char),
      (∀ g ∈ good, ∃ ds, parse_date_multiple_days g = .ok ds) →
      parse_date_multiple_days bad = .error e →
      with_bank_holidays bh (good ++ bad :: rest) =
        ((with_bank_holidays bh good).1, some e)) :=
  ⟨datesUnitsCheck_fail_fast,
   meterPairsCheck_fail_fast,
   fun bh good bad rest e h hbad => with_bank_holidays_fail_fast good bh bad rest e h hbad⟩

/-- Witness for C3: the registry applied to a good string, then the
malformed string "29", then another good string, keeps exactly the dates
of the first string and surfaces the parser error of "29" unchanged. -/
theorem c3_fail_fast_witness :
    with_bank_holidays [] [("2022-12-25").data, ("29").data, ("2023-01-01").data] =
      ((with_bank_holidays [] [("2022-12-25").data]).1,
        some (errParts (("29").data) (("29").data))) := by
  refine c3_fail_fast.2.2 [] [("2022-12-25").data] (("29").data) [("2023-01-01").data]
    (errParts (("29").data) (("29").data)) ?_ rfl
  intro g hg
  simp only [List.mem_cons, List.not_mem_nil, or_false] at hg
  subst hg
  exact ⟨_, rfl⟩

/-- Splitting never yields an empty field list. -/
theorem splitSep_ne_nil (sep : Char) : ∀ l : List Char, splitSep sep l ≠ [] := by
  intro l
  cases l with
  | nil => simp [splitSep]
  | cons c rest =>
    simp only [splitSep]
    split_ifs <;> simp

/-- A list without the separator splits into itself as the only field. -/
theorem splitSep_no_sep (sep : Char) :
    ∀ l : List Char, (∀ x ∈ l, x ≠ sep) → splitSep sep l = [l] := by
  intro l
  induction l with
  | nil => intro _; rfl
  | cons c rest ih =>
    intro h
    simp only [splitSep]
    rw [if_neg (h c (by simp)), ih (fun x hx => h x (by simp [hx]))]
    rfl

/-- Splitting a list that starts with a separator-free chunk followed by
the separator yields that chunk as the first field. -/
theorem splitSep_append (sep : Char) (ys : List Char) :
    ∀ xs : List Char, (∀ x ∈ xs, x ≠ sep) →
      splitSep sep (xs ++ sep :: ys) = xs :: splitSep sep ys := by
  intro xs
  induction xs with
  | nil =>
    intro _
    simp [splitSep]
  | cons c xs ih =>
    intro h
    simp only [List.cons_append, splitSep, List.append_eq]
    rw [if_neg (h c (by simp)), ih (fun x hx => h x (by simp [hx]))]
    rfl

/-- Joining the fields of a split restores the original list. -/
theorem joinSep_splitSep (sep : Char) :
    ∀ l : List Char, joinSep sep (splitSep sep l) = l := by
  intro l
  induction l with
  | nil => rfl
  | cons c rest ih =>
    simp only [splitSep]
    cases hr : splitSep sep rest with
    | nil => exact absurd hr (splitSep_ne_nil sep rest)
    | cons g gs =>
      rw [hr] at ih
      by_cases hc : c = sep
      · rw [if_pos hc, hc]
        simp only [joinSep]
        rw [ih]
        rfl
      · rw [if_neg hc]
        simp only [List.headD_cons, List.tail_cons]
        cases gs with
        | nil =>
          simp only [joinSep] at ih ⊢
          rw [ih]
        | cons g2 gs2 =>
          simp only [joinSep] at ih ⊢
          rw [← ih]
          simp

/-- The digits taken and the rest reassemble into the input. -/
theorem takeDigits_split : ∀ (n : Nat) (l : List Char),
    (takeDigits n l).1 ++ (takeDigits n l).2 = l := by
  intro n
  induction n with
  | zero => intro l; rfl
  | succ n ih =>
    intro l
    cases l with
    | nil => rfl
    | cons c rest =>
      by_cases hc : c.isDigit
      · simp [takeDigits, hc, ih rest]
      · simp [takeDigits, hc]

/-- Every taken character is an ASCII digit. -/
theorem takeDigits_digits : ∀ (n : Nat) (l : List Char) (c : Char),
    c ∈ (takeDigits n l).1 → c.isDigit := by
  intro n
  induction n with
  | zero => intro l c h; simp [takeDigits] at h
  | succ n ih =>
    intro l c h
    cases l with
    | nil => simp [takeDigits] at h
    | cons c1 rest =>
      by_cases hc : c1.isDigit
      · simp only [takeDigits, if_pos hc] at h
        rcases List.mem_cons.mp h with h | h
        · subst h; exact hc
        · exact ih rest c h
      · simp [takeDigits, hc] at h

/-- Inversion of the month-day continuation: success means the remainder
was a hyphen, a nonempty digit run, a hyphen and a nonempty digit run,
and the value is built from those runs and passed the calendar check. -/
theorem afterYear_some : ∀ (y : Int) (r : List Char) (v : Int × Nat × Nat),
    afterYear y r = some v →
    ∃ tm td, r = '-' :: (tm ++ '-' :: td) ∧ tm ≠ [] ∧ td ≠ [] ∧
      (∀ c ∈ tm, c.isDigit) ∧ (∀ c ∈ td, c.isDigit) ∧
      v = (y, digitsVal tm, digitsVal td) ∧
      validYmd y (digitsVal tm) (digitsVal td) := by
  intro y r v h
  cases r with
  | nil => simp [afterYear] at h
  | cons c r1 =>
    simp only [afterYear] at h
    by_cases hc : c = '-'
    · rw [if_pos hc] at h
      by_cases hm : (takeDigits 2 r1).1 = []
      · rw [if_pos hm] at h
        simp at h
      · rw [if_neg hm] at h
        cases h2 : (takeDigits 2 r1).2 with
        | nil =>
          rw [h2] at h
          simp at h
        | cons c2 r3 =>
          rw [h2] at h
          simp only [] at h
          by_cases hc2 : c2 = '-'
          · rw [if_pos hc2] at h
            by_cases hd : (takeDigits 2 r3).1 = []
            · rw [if_pos hd] at h
              simp at h
            · rw [if_neg hd] at h
              by_cases hd2 : (takeDigits 2 r3).2 = []
              · rw [if_pos hd2] at h
                simp only [mkYmd] at h
                by_cases hv : validYmd y (digitsVal (takeDigits 2 r1).1)
                    (digitsVal (takeDigits 2 r3).1)
                · rw [if_pos hv] at h
                  refine ⟨(takeDigits 2 r1).1, (takeDigits 2 r3).1, ?_, hm, hd,
                    fun x hx => takeDigits_digits 2 r1 x hx,
                    fun x hx => takeDigits_digits 2 r3 x hx, ?_, hv⟩
                  · subst hc hc2
                    have e1 := takeDigits_split 2 r1
                    have e2 := takeDigits_split 2 r3
                    rw [h2] at e1
                    rw [hd2, List.append_nil] at e2
                    rw [e2, e1]
                  · exact (Option.some.injEq _ _ ▸ h).symm
                · rw [if_neg hv] at h
                  simp at h
              · rw [if_neg hd2] at h
                simp at h
          · rw [if_neg hc2] at h
            simp at h
    · rw [if_neg hc] at h
      simp at h

/-- Every date accepted by the chrono model is a real calendar date. -/
theorem parseYmd_valid : ∀ (l : List Char) (v : Int × Nat × Nat),
    parseYmd l = some v → validYmd v.1 v.2.1 v.2.2 := by
  intro l v h
  cases l with
  | nil => simp [parseYmd] at h
  | cons c rest =>
    simp only [parseYmd] at h
    by_cases hc : c = '-'
    · rw [if_pos hc] at h
      by_cases h1 : (takeDigits rest.length rest).1 = []
      · rw [if_pos h1] at h
        simp at h
      · rw [if_neg h1] at h
        by_cases h2 : digitsVal (takeDigits rest.length rest).1 ≤ 9223372036854775807
        · rw [if_pos h2] at h
          obtain ⟨tm, td, -, -, -, -, -, hveq, hval⟩ := afterYear_some _ _ _ h
          rw [hveq]
          exact hval
        · rw [if_neg h2] at h
          simp at h
    · rw [if_neg hc] at h
      by_cases hp : c = '+'
      · rw [if_pos hp] at h
        by_cases h1 : (takeDigits rest.length rest).1 = []
        · rw [if_pos h1] at h
          simp at h
        · rw [if_neg h1] at h
          by_cases h2 : digitsVal (takeDigits rest.length rest).1 ≤ 9223372036854775807
          · rw [if_pos h2] at h
            obtain ⟨tm, td, -, -, -, -, -, hveq, hval⟩ := afterYear_some _ _ _ h
            rw [hveq]
            exact hval
          · rw [if_neg h2] at h
            simp at h
      · rw [if_neg hp] at h
        by_cases h1 : (takeDigits 4 (c :: rest)).1 = []
        · rw [if_pos h1] at h
          simp at h
        · rw [if_neg h1] at h
          obtain ⟨tm, td, -, -, -, -, -, hveq, hval⟩ := afterYear_some _ _ _ h
          rw [hveq]
          exact hval

/-- Inversion of the chrono model on inputs that do not start with a
hyphen: an accepted string is a year chunk (digits, possibly after a
plus sign), a hyphen, a digit chunk, a hyphen and a digit chunk. -/
theorem parseYmd_shape : ∀ (l : List Char) (v : Int × Nat × Nat),
    parseYmd l = some v → l.head? ≠ some '-' →
    ∃ yc tm td, l = yc ++ '-' :: (tm ++ '-' :: td) ∧ yc ≠ [] ∧ tm ≠ [] ∧ td ≠ [] ∧
      (∀ c ∈ yc, c.isDigit ∨ c = '+') ∧ (∀ c ∈ tm, c.isDigit) ∧ (∀ c ∈ td, c.isDigit) := by
  intro l v h hh
  cases l with
  | nil => simp [parseYmd] at h
  | cons c rest =>
    simp only [parseYmd] at h
    by_cases hc : c = '-'
    · subst hc
      exact absurd rfl hh
    · rw [if_neg hc] at h
      by_cases hp : c = '+'
      · rw [if_pos hp] at h
        by_cases h1 : (takeDigits rest.length rest).1 = []
        · rw [if_pos h1] at h
          simp at h
        · rw [if_neg h1] at h
          by_cases h2 : digitsVal (takeDigits rest.length rest).1 ≤ 9223372036854775807
          · rw [if_pos h2] at h
            obtain ⟨tm, td, hr2, htm, htd, htmd, htdd, -, -⟩ := afterYear_some _ _ _ h
            refine ⟨c :: (takeDigits rest.length rest).1, tm, td, ?_, by simp, htm, htd,
              ?_, htmd, htdd⟩
            · have e1 := takeDigits_split rest.length rest
              rw [hr2] at e1
              rw [List.cons_append, e1]
            · intro x hx
              rcases List.mem_cons.mp hx with hx | hx
              · subst hx
                exact Or.inr hp
              · exact Or.inl (takeDigits_digits _ _ _ hx)
          · rw [if_neg h2] at h
            simp at h
      · rw [if_neg hp] at h
        by_cases h1 : (takeDigits 4 (c :: rest)).1 = []
        · rw [if_pos h1] at h
          simp at h
        · rw [if_neg h1] at h
          obtain ⟨tm, td, hr2, htm, htd, htmd, htdd, -, -⟩ := afterYear_some _ _ _ h
          refine ⟨(takeDigits 4 (c :: rest)).1, tm, td, ?_, h1, htm, htd,
            fun x hx => Or.inl (takeDigits_digits _ _ _ hx), htmd, htdd⟩
          have e1 := takeDigits_split 4 (c :: rest)
          rw [hr2] at e1
          rw [e1]

/-- An ASCII digit is none of the three delimiter characters. -/
theorem isDigit_ne (c : Char) (h : c.isDigit) : c ≠ ';' ∧ c ≠ ',' ∧ c ≠ '-' := by
  refine ⟨fun he => ?_, fun he => ?_, fun he => ?_⟩ <;> subst he <;>
    exact absurd h (by decide)

/-- The day loop on success returns the composed year-month-day strings
in field order, one per field. -/
theorem parseRestDays_ok_map : ∀ (ym : List Char) (fs ds : List (List Char)),
    parseRestDays ym fs = .ok ds → ds = fs.map (fun f => ym ++ '-' :: f) := by
  intro ym fs
  induction fs with
  | nil =>
    intro ds h
    simp only [parseRestDays] at h
    injection h with h
    subst h
    rfl
  | cons f fs ih =>
    intro ds h
    simp only [parseRestDays] at h
    split at h
    · split at h
      · exact absurd h (by simp)
      · rename_i ds2 heq
        injection h with h
        subst h
        rw [List.map_cons, ih ds2 heq]
    · exact absurd h (by simp)

/-- Every date produced by the day loop passed chrono validation. -/
theorem parseRestDays_ok_some : ∀ (ym : List Char) (fs ds : List (List Char)),
    parseRestDays ym fs = .ok ds → ∀ dt ∈ ds, (parseYmd dt).isSome = true := by
  intro ym fs
  induction fs with
  | nil =>
    intro ds h dt hdt
    simp only [parseRestDays] at h
    injection h with h
    subst h
    simp at hdt
  | cons f fs ih =>
    intro ds h dt hdt
    simp only [parseRestDays] at h
    split at h
    · rename_i hsome
      split at h
      · exact absurd h (by simp)
      · rename_i ds2 heq
        injection h with h
        subst h
        rcases List.mem_cons.mp hdt with hdt | hdt
        · subst hdt
          exact hsome
        · exact ih ds2 heq dt hdt
    · exact absurd h (by simp)

/-- Success of a unit parse determines the output: the first field (which
split into three hyphen parts) followed by one composed date per further
comma field, all sharing the year-month of the first field. -/
theorem parseDateUnit_ok : ∀ (u f0 : List Char) (fs out : List (List Char)),
    splitSep ',' u = f0 :: fs → parseDateUnit u = .ok out →
    ∃ a b c, splitSep '-' f0 = [a, b, c] ∧
      out = f0 :: fs.map (fun f => (a ++ '-' :: b) ++ '-' :: f) := by
  intro u f0 fs out hsplit h
  simp only [parseDateUnit, hsplit] at h
  split at h
  · rename_i a b c heq
    split at h
    · split at h
      · exact absurd h (by simp)
      · rename_i ds heqr
        injection h with h
        subst h
        refine ⟨a, b, c, heq, ?_⟩
        have hf0 : f0 = (a ++ '-' :: b) ++ '-' :: c := by
          have hj := joinSep_splitSep '-' f0
          rw [heq] at hj
          simp only [joinSep] at hj
          rw [← hj]
          simp [List.append_assoc]
        rw [parseRestDays_ok_map _ _ _ heqr, hf0]
    · exact absurd h (by simp)
  · exact absurd h (by simp)

/-- Every date produced by a successful unit parse passed chrono
validation. -/
theorem parseDateUnit_ok_some : ∀ (u : List Char) (out : List (List Char)),
    parseDateUnit u = .ok out → ∀ dt ∈ out, (parseYmd dt).isSome = true := by
  intro u out h dt hdt
  rcases hsplit : splitSep ',' u with _ | ⟨f0, fs⟩
  · exact absurd hsplit (splitSep_ne_nil ',' u)
  · simp only [parseDateUnit, hsplit] at h
    split at h
    · rename_i a b c heq
      split at h
      · rename_i hsome
        split at h
        · exact absurd h (by simp)
        · rename_i ds heqr
          injection h with h
          subst h
          rcases List.mem_cons.mp hdt with hdt | hdt
          · subst hdt
            exact hsome
          · exact parseRestDays_ok_some _ _ _ heqr dt hdt
      · exact absurd h (by simp)
    · exact absurd h (by simp)

/-- Every date produced by a successful dates_list_check run passed
chrono validation. -/
theorem datesUnitsCheck_ok_some : ∀ (us out : List (List Char)),
    datesUnitsCheck us = .ok out → ∀ dt ∈ out, (parseYmd dt).isSome = true := by
  intro us
  induction us with
  | nil =>
    intro out h dt hdt
    injection h with h
    subst h
    simp at hdt
  | cons u us ih =>
    intro out h dt hdt
    simp only [datesUnitsCheck] at h
    split at h
    · exact absurd h (by simp)
    · rename_i ds heq
      split at h
      · exact absurd h (by simp)
      · rename_i rest heqr
        injection h with h
        subst h
        rcases List.mem_append.mp hdt with hdt | hdt
        · exact parseDateUnit_ok_some u ds heq dt hdt
        · exact ih rest heqr dt hdt

/-- A chrono-valid single date without a leading hyphen round-trips
through the date list parser as exactly one date equal to the input. -/
theorem dates_single (d : List Char) (v : Int × Nat × Nat)
    (hv : parseYmd d = some v) (hh : d.head? ≠ some '-') :
    dates_list_check d = .ok [d] := by
  obtain ⟨yc, tm, td, hd, hyc, htm, htd, hycd, htmd, htdd⟩ := parseYmd_shape d v hv hh
  have hall : ∀ x ∈ d, (x.isDigit ∨ x = '+') ∨ x = '-' := by
    intro x hx
    rw [hd] at hx
    rcases List.mem_append.mp hx with hx | hx
    · exact Or.inl (hycd x hx)
    · rcases List.mem_cons.mp hx with hx | hx
      · exact Or.inr hx
      · rcases List.mem_append.mp hx with hx | hx
        · exact Or.inl (Or.inl (htmd x hx))
        · rcases List.mem_cons.mp hx with hx | hx
          · exact Or.inr hx
          · exact Or.inl (Or.inl (htdd x hx))
  have hnosemi : ∀ x ∈ d, x ≠ ';' := by
    intro x hx
    rcases hall x hx with (hdig | hplus) | hdash
    · exact (isDigit_ne x hdig).1
    · subst hplus; decide
    · subst hdash; decide
  have hnocomma : ∀ x ∈ d, x ≠ ',' := by
    intro x hx
    rcases hall x hx with (hdig | hplus) | hdash
    · exact (isDigit_ne x hdig).2.1
    · subst hplus; decide
    · subst hdash; decide
  have h1 : splitSep ';' d = [d] := splitSep_no_sep ';' d hnosemi
  have h2 : splitSep ',' d = [d] := splitSep_no_sep ',' d hnocomma
  have hycnos : ∀ x ∈ yc, x ≠ '-' := by
    intro x hx
    rcases hycd x hx with hdig | hplus
    · exact (isDigit_ne x hdig).2.2
    · subst hplus; decide
  have htmnos : ∀ x ∈ tm, x ≠ '-' := fun x hx => (isDigit_ne x (htmd x hx)).2.2
  have htdnos : ∀ x ∈ td, x ≠ '-' := fun x hx => (isDigit_ne x (htdd x hx)).2.2
  have h3 : splitSep '-' d = [yc, tm, td] := by
    rw [hd, splitSep_append '-' _ yc hycnos, splitSep_append '-' _ tm htmnos,
      splitSep_no_sep '-' td htdnos]
  have hdate : (yc ++ '-' :: tm) ++ '-' :: td = d := by
    rw [hd]
    simp [List.append_assoc]
  have hu : parseDateUnit d = .ok [d] := by
    simp only [parseDateUnit, h2, h3]
    rw [hdate, hv]
    simp [parseRestDays]
  unfold dates_list_check
  rw [h1]
  simp only [datesUnitsCheck, hu]
  simp [datesUnitsCheck]

/-- C6: a valid single date round-trips through parseDateList as exactly
one date equal to the input, and a successful multi-day unit parse
returns one date per comma field, in input order with duplicates
preserved, the first field itself followed by the composed dates sharing
its year-month prefix. -/
theorem c6_roundtrip :
    (∀ (d : List Char) (v : Int × Nat × Nat), parseYmd d = some v → d.head? ≠ some '-' →
      dates_list_check d = .ok [d])
  ∧ (∀ (u f0 : List Char) (fs out : List (List Char)),
      splitSep ',' u = f0 :: fs → parse_date_multiple_days u = .ok out →
      ∃ a b c, splitSep '-' f0 = [a, b, c] ∧
        out = f0 :: fs.map (fun f => (a ++ '-' :: b) ++ '-' :: f) ∧
        out.length = fs.length + 1 ∧
        ∀ dt ∈ out, ∃ r, dt = (a ++ '-' :: b) ++ r) := by
  constructor
  · exact dates_single
  · intro u f0 fs out hsplit h
    obtain ⟨a, b, c, heq, hout⟩ := parseDateUnit_ok u f0 fs out hsplit h
    have hf0 : f0 = (a ++ '-' :: b) ++ '-' :: c := by
      have hj := joinSep_splitSep '-' f0
      rw [heq] at hj
      simp only [joinSep] at hj
      rw [← hj]
      simp [List.append_assoc]
    refine ⟨a, b, c, heq, hout, by rw [hout]; simp, ?_⟩
    intro dt hdt
    rw [hout] at hdt
    rcases List.mem_cons.mp hdt with hdt | hdt
    · subst hdt
      exact ⟨'-' :: c, hf0⟩
    · obtain ⟨f, -, hf⟩ := List.mem_map.mp hdt
      exact ⟨'-' :: f, hf.symm⟩

/-- Witness for C6: the single date "2022-12-25" round-trips, and the
unit "2022-12-25,26" expands to two dates sharing the year-month. -/
theorem c6_roundtrip_witness :
    dates_list_check (("2022-12-25").data) = .ok [("2022-12-25").data] :=
  c6_roundtrip.1 (("2022-12-25").data) (2022, 12, 25) rfl (by decide)

/-- A date list whose units contain an empty unit (a trailing or doubled
semicolon in the raw string) always fails. -/
theorem datesUnitsCheck_empty_unit : ∀ (us1 us2 : List (List Char)),
    exceptIsError (datesUnitsCheck (us1 ++ ([] : List Char) :: us2)) = true := by
  intro us1
  induction us1 with
  | nil => intro us2; rfl
  | cons v us1 ih =>
    intro us2
    simp only [List.cons_append, datesUnitsCheck, List.append_eq]
    cases hv : parseDateUnit v with
    | error e => rfl
    | ok ds =>
      have hrec := ih us2
      cases hr : datesUnitsCheck (us1 ++ ([] : List Char) :: us2) with
      | error e => rfl
      | ok rest =>
        rw [hr] at hrec
        exact absurd hrec (by simp [exceptIsError])

/-- A counter list whose pairs contain an empty pair (a trailing or
doubled comma in the raw string) never succeeds: provided no earlier pair
panics, it returns an error. -/
theorem meterPairsCheck_empty_pair : ∀ (ps1 : List (List Char)),
    (∀ q ∈ ps1, meterPairCheck q ≠ none) →
    ∀ ps2, isSomeError (meterPairsCheck (ps1 ++ ([] : List Char) :: ps2)) = true := by
  intro ps1
  induction ps1 with
  | nil => intro _ ps2; rfl
  | cons q ps1 ih =>
    intro h ps2
    simp only [List.cons_append, meterPairsCheck, List.append_eq]
    cases hq : meterPairCheck q with
    | none => exact absurd hq (h q (by simp))
    | some r =>
      cases r with
      | error e => rfl
      | ok pr =>
        have hrec := ih (fun x hx => h x (by simp [hx])) ps2
        cases hr : meterPairsCheck (ps1 ++ ([] : List Char) :: ps2) with
        | none =>
          rw [hr] at hrec
          exact absurd hrec (by simp [isSomeError])
        | some r2 =>
          cases r2 with
          | error e => rfl
          | ok rest =>
            rw [hr] at hrec
            exact absurd hrec (by simp [isSomeError])

/-- C4: the nonexistent dates "2022-09-31" and "2022-02-29" (2022 is not
a leap year) are rejected; each documented malformed input produces an
error from its parser; any empty unit or pair coming from a trailing or
doubled delimiter produces an error; and in general a successful
parseDateList run only ever returns dates whose day exists in their
month and year, so every nonexistent date is rejected. -/
theorem c4_rejections :
    exceptIsError (dates_list_check (("2022-09-31").data)) = true
  ∧ exceptIsError (dates_list_check (("2022-02-29").data)) = true
  ∧ isSomeError (meter_counters_check (("p1=").data)) = true
  ∧ isSomeError (meter_counters_check (("p=187").data)) = true
  ∧ isSomeError (meter_counters_check (("a1=187").data)) = true
  ∧ isSomeError (meter_counters_check (("p1=18,15").data)) = true
  ∧ exceptIsError (dates_list_check (("2022-12-25;26").data)) = true
  ∧ exceptIsError (dates_list_check (("2022-12-25,").data)) = true
  ∧ (∀ us1 us2 : List (List Char),
      exceptIsError (datesUnitsCheck (us1 ++ ([] : List Char) :: us2)) = true)
  ∧ (∀ ps1 : List (List Char), (∀ q ∈ ps1, meterPairCheck q ≠ none) →
      ∀ ps2, isSomeError (meterPairsCheck (ps1 ++ ([] : List Char) :: ps2)) = true)
  ∧ (∀ (s : List Char) (out : List (List Char)), dates_list_check s = .ok out →
      ∀ dt ∈ out, ∃ y m d, parseYmd dt = some (y, m, d) ∧
        1 ≤ m ∧ m ≤ 12 ∧ 1 ≤ d ∧ d ≤ daysInMonth y m) := by
  refine ⟨rfl, rfl, rfl, rfl, rfl, rfl, rfl, rfl,
    datesUnitsCheck_empty_unit, meterPairsCheck_empty_pair, ?_⟩
  intro s out h dt hdt
  have hsome := datesUnitsCheck_ok_some (splitSep ';' s) out h dt hdt
  obtain ⟨v, hv⟩ := Option.isSome_iff_exists.mp hsome
  have hval := parseYmd_valid dt v hv
  exact ⟨v.1, v.2.1, v.2.2, hv, hval.2.2.1, hval.2.2.2.1, hval.2.2.2.2.1,
    hval.2.2.2.2.2⟩

/-- Witness for C4: an empty trailing unit fails, and a successful parse
of "2022-12-25" yields only existing calendar dates. -/
theorem c4_rejections_witness :
    exceptIsError (datesUnitsCheck ([("2022-12-25").data] ++ ([] : List Char) :: [])) = true
  ∧ (∃ y m d, parseYmd (("2022-12-25").data) = some (y, m, d) ∧
      1 ≤ m ∧ m ≤ 12 ∧ 1 ≤ d ∧ d ≤ daysInMonth y m) := by
  obtain ⟨-, -, -, -, -, -, -, -, hD, -, hV⟩ := c4_rejections
  refine ⟨hD [("2022-12-25").data] [], ?_⟩
  exact hV (("2022-12-25").data) [("2022-12-25").data] rfl (("2022-12-25").data) (by simp)

/-- C2 (code bug): the counter parser does not always return a result.
On the input "é=5" the name field is two bytes long, so the length guard
passes, but byte index 1 falls inside the two-byte character and
str::get(0..1) returns None, making the unwrap panic; the panic is the
none value of the model.  The date parser performs no such byte indexing
and is total by construction. -/
theorem c2_counter_panic :
    meter_counters_check (("é=5").data) = none ∧
    meterPairCheck (("é=5").data) = none := ⟨rfl, rfl⟩

/-- C7 (code bug): the date parser accepts inputs outside the documented
grammar: chrono parses numeric fields with 1 to width digits, so the
single-digit day "2022-12-5" and the single-digit month "2022-1-01" are
both accepted and returned verbatim, where the documented grammar and
the claim require two-digit fields. -/
theorem c7_grammar_violated :
    dates_list_check (("2022-12-5").data) = .ok [("2022-12-5").data]
  ∧ dates_list_check (("2022-1-01").data) = .ok [("2022-1-01").data] := ⟨rfl, rfl⟩
